import Mathlib

/-!
Shallow embedding of the syookAssign encrypted streaming ingestion pipeline.

The JavaScript source is modelled as follows: JS strings become `List Char`,
byte buffers become `List Nat` with every entry below 256, fallible calls
return `Except`/`Option`, and the randomness consumed by the source
(initialization vectors, generated batches, record identifiers, clock
readings) is passed in explicitly as arguments.  External library
primitives (the AES-256-CTR keystream of node:crypto, the SHA-256 digest,
`JSON.parse`) are abstract function parameters; everything written in the
repository itself is translated definition by definition.
-/

/-- JavaScript strings are modelled as lists of characters. -/
abbrev JStr := List Char

/-- Model of the JavaScript `String.prototype.split` with a single-character
separator: splitting the empty string yields one empty field, and every
occurrence of the separator starts a new field. -/
def splitOnChar (d : Char) : JStr → List JStr
  | [] => [[]]
  | c :: cs =>
    if c = d then [] :: splitOnChar d cs
    else (c :: (splitOnChar d cs).headI) :: (splitOnChar d cs).tail

/-- Model of the JavaScript `Array.prototype.join` with a single-character
separator. -/
def joinChar (d : Char) : List JStr → JStr
  | [] => []
  | [x] => x
  | x :: y :: xs => x ++ d :: joinChar d (y :: xs)

/-- Characters removed by the JavaScript `String.prototype.trim`: the
ECMAScript WhiteSpace and LineTerminator code points — tab, line feed,
vertical tab, form feed, carriage return, space, no-break space, the Ogham
space mark, the en-quad through hair-space range, the line and paragraph
separators, the narrow no-break space, the medium mathematical space, the
ideographic space, and the zero-width no-break space. -/
def isJsWhitespace (c : Char) : Bool :=
  c.toNat = 0x09 || c.toNat = 0x0a || c.toNat = 0x0b || c.toNat = 0x0c ||
  c.toNat = 0x0d || c.toNat = 0x20 || c.toNat = 0xa0 || c.toNat = 0x1680 ||
  (0x2000 ≤ c.toNat && c.toNat ≤ 0x200a) || c.toNat = 0x2028 ||
  c.toNat = 0x2029 || c.toNat = 0x202f || c.toNat = 0x205f ||
  c.toNat = 0x3000 || c.toNat = 0xfeff

/-- Model of `String.prototype.trim`: strip whitespace from both ends. -/
def jsTrim (s : JStr) : JStr :=
  ((s.dropWhile isJsWhitespace).reverse.dropWhile isJsWhitespace).reverse

/-- JavaScript values reaching `parseMessageStream`: either a string or some
non-string value (which the `typeof` check rejects). -/
inductive JsVal where
  | str (s : JStr)
  | nonString
deriving DecidableEq

/-- From src/utility/messageGenerator.js, `parseMessageStream`: throws
(modelled as `Except.error`) when the input is falsy (the empty string) or
not a string, otherwise splits on the pipe delimiter and keeps only the
substrings whose trimmed length is positive. -/
def parseMessageStream (v : JsVal) : Except JStr (List JStr) :=
  match v with
  | .nonString => .error "Invalid message stream format".toList
  | .str s =>
    if s = [] then .error "Invalid message stream format".toList
    else .ok ((splitOnChar '|' s).filter (fun m => 0 < (jsTrim m).length))

/-- From src/utility/messageGenerator.js, `createMessageStream`: joins the
batch of encrypted messages with the pipe delimiter.  The randomly generated
batch itself is taken as the argument. -/
def createMessageStream (encryptedMessages : List JStr) : JStr :=
  joinChar '|' encryptedMessages

theorem splitOnChar_ne_nil (d : Char) (s : JStr) : splitOnChar d s ≠ [] := by
  cases s with
  | nil => simp [splitOnChar]
  | cons c cs => by_cases hc : c = d <;> simp [splitOnChar, hc]

theorem splitOnChar_not_mem {d : Char} : ∀ {s : JStr}, d ∉ s →
    splitOnChar d s = [s] := by
  intro s
  induction s with
  | nil => intro _; rfl
  | cons c cs ih =>
    intro h
    have hcd : ¬ (c = d) := fun hc => h (hc ▸ List.mem_cons_self c cs)
    have hcs : d ∉ cs := fun hm => h (List.mem_cons_of_mem c hm)
    simp [splitOnChar, hcd, ih hcs]

theorem splitOnChar_append {d : Char} : ∀ {x : JStr}, d ∉ x → ∀ (rest : JStr),
    splitOnChar d (x ++ d :: rest) = x :: splitOnChar d rest := by
  intro x
  induction x with
  | nil =>
    intro _ rest
    simp [splitOnChar]
  | cons c cs ih =>
    intro h rest
    have hcd : ¬ (c = d) := fun hc => h (hc ▸ List.mem_cons_self c cs)
    have hcs : d ∉ cs := fun hm => h (List.mem_cons_of_mem c hm)
    simp [splitOnChar, hcd, ih hcs rest]

theorem splitOnChar_joinChar {d : Char} : ∀ {xs : List JStr}, xs ≠ [] →
    (∀ x ∈ xs, d ∉ x) → splitOnChar d (joinChar d xs) = xs := by
  intro xs
  induction xs with
  | nil => intro h; exact absurd rfl h
  | cons x ys ih =>
    intro _ hmem
    cases ys with
    | nil =>
      have hx : d ∉ x := hmem x (List.mem_cons_self x [])
      simpa [joinChar] using splitOnChar_not_mem hx
    | cons y zs =>
      have hx : d ∉ x := hmem x (List.mem_cons_self x (y :: zs))
      have hrest : ∀ z ∈ y :: zs, d ∉ z := fun z hz =>
        hmem z (List.mem_cons_of_mem x hz)
      have hne : (y :: zs : List JStr) ≠ [] := by simp
      calc splitOnChar d (joinChar d (x :: y :: zs))
          = splitOnChar d (x ++ d :: joinChar d (y :: zs)) := by rfl
        _ = x :: splitOnChar d (joinChar d (y :: zs)) := splitOnChar_append hx _
        _ = x :: (y :: zs) := by rw [ih hne hrest]

theorem joinChar_ne_nil {d : Char} {x : JStr} {xs : List JStr} (hx : x ≠ []) :
    joinChar d (x :: xs) ≠ [] := by
  cases xs with
  | nil => simpa [joinChar] using hx
  | cons y ys => simp [joinChar]

/-- C5: decoding inverts encoding for batches of delimiter-free strings that
survive the trim filter, and decoding the empty string or a non-string input
fails.  (The claim as frozen also allowed whitespace-only strings; those are
dropped by the filter, see the counterexample.) -/
theorem parseMessageStream_inverts_createMessageStream (xs : List JStr)
    (hne : xs ≠ [])
    (hx : ∀ x ∈ xs, '|' ∉ x ∧ 0 < (jsTrim x).length) :
    parseMessageStream (.str (createMessageStream xs)) = .ok xs ∧
    parseMessageStream (.str []) = .error "Invalid message stream format".toList ∧
    parseMessageStream .nonString = .error "Invalid message stream format".toList := by
  refine ⟨?_, rfl, rfl⟩
  have hstream : createMessageStream xs ≠ [] := by
    cases xs with
    | nil => exact absurd rfl hne
    | cons x ys =>
      have hxlen : 0 < (jsTrim x).length := (hx x (List.mem_cons_self x ys)).2
      have hxne : x ≠ [] := by
        intro h
        rw [h] at hxlen
        simp [jsTrim] at hxlen
      exact joinChar_ne_nil hxne
  have hsplit : splitOnChar '|' (createMessageStream xs) = xs :=
    splitOnChar_joinChar hne (fun x hxm => (hx x hxm).1)
  have hfilter : xs.filter (fun m => 0 < (jsTrim m).length) = xs :=
    List.filter_eq_self.mpr (fun x hxm => by
      simpa using (hx x hxm).2)
  simp [parseMessageStream, hstream, hsplit, hfilter]

/-- C5 fails as frozen: the one-character string consisting of a single
space is non-empty and delimiter-free, but decoding the encoding of the
one-element batch holding it drops it, returning the empty batch. -/
theorem parseMessageStream_whitespace_counterexample :
    parseMessageStream (.str (createMessageStream [[' ']])) = .ok [] ∧
    (Except.ok [] : Except JStr (List JStr)) ≠ .ok [[' ']] := by
  refine ⟨rfl, ?_⟩
  intro h
  have hlists : ([] : List JStr) = [[' ']] := by injection h
  exact absurd hlists (by decide)

/-- Witness for the C5 round-trip theorem at the concrete batch `["ab", "c"]`. -/
theorem parseMessageStream_inverts_createMessageStream_witness :
    parseMessageStream (.str (createMessageStream [['a', 'b'], ['c']])) =
      .ok [['a', 'b'], ['c']] :=
  (parseMessageStream_inverts_createMessageStream [['a', 'b'], ['c']]
    (by decide) (by decide)).1

/-! Hex encoding, as produced by Buffer.toString with the hex encoding and
consumed by Buffer.from.  Bytes are naturals below 256. -/

/-- Lowercase hexadecimal digit for a value below 16. -/
def hexDigit (n : Nat) : Char :=
  if n < 10 then Char.ofNat (48 + n) else Char.ofNat (87 + n)

/-- Two-character lowercase hex rendering of one byte. -/
def byteToHex (b : Nat) : JStr := [hexDigit (b / 16), hexDigit (b % 16)]

/-- Hex rendering of a byte buffer, as in Buffer.toString. -/
def hexEncode : List Nat → JStr
  | [] => []
  | b :: bs => byteToHex b ++ hexEncode bs

/-- Value of one hexadecimal digit character, if any. -/
def hexDigitVal (c : Char) : Option Nat :=
  if 48 ≤ c.toNat ∧ c.toNat ≤ 57 then some (c.toNat - 48)
  else if 97 ≤ c.toNat ∧ c.toNat ≤ 102 then some (c.toNat - 87)
  else if 65 ≤ c.toNat ∧ c.toNat ≤ 70 then some (c.toNat - 55)
  else none

/-- Hex parsing of a string into a byte buffer, as in Buffer.from.  The model
is strict (ill-formed hex is rejected); the round-trip statements only ever
apply it to well-formed hex output. -/
def hexDecode : JStr → Option (List Nat)
  | [] => some []
  | [_] => none
  | c1 :: c2 :: rest => do
    let hi ← hexDigitVal c1
    let lo ← hexDigitVal c2
    let bs ← hexDecode rest
    pure ((16 * hi + lo) :: bs)

/-- Modelled AES-256-CTR keystream application from src/utility/crypto.js.
The symmetric key is fixed for the whole process (scrypt of the configured
secret with the fixed salt), so the keystream is an abstract function of the
initialization vector and the byte position; CTR mode XORs the data with the
keystream bytes.  The recursion carries the byte position. -/
def ctrXorFrom (ks : Nat → Nat) : Nat → List Nat → List Nat
  | _, [] => []
  | i, b :: bs => (b ^^^ (ks i % 256)) :: ctrXorFrom ks (i + 1) bs

/-- CTR keystream application starting at position zero. -/
def ctrXor (ks : Nat → Nat) (data : List Nat) : List Nat := ctrXorFrom ks 0 data

/-- From src/utility/crypto.js, `encrypt`: hex of the initialization vector,
a colon, then hex of the ciphertext.  The fresh random vector drawn by
crypto.randomBytes is the `iv` argument; `keystream` abstracts the AES-256-CTR
cipher for the process-wide derived key. -/
def encrypt (keystream : List Nat → Nat → Nat) (iv : List Nat)
    (text : List Nat) : JStr :=
  hexEncode iv ++ ':' :: hexEncode (ctrXor (keystream iv) text)

/-- From src/utility/crypto.js, `decrypt`: split on the colon, require exactly
two parts, parse both as hex, require a 16-byte initialization vector (as
createDecipheriv does), and apply the keystream again. -/
def decrypt (keystream : List Nat → Nat → Nat) (encryptedText : JStr) :
    Except JStr (List Nat) :=
  match splitOnChar ':' encryptedText with
  | [p1, p2] =>
    match hexDecode p1, hexDecode p2 with
    | some iv, some ct =>
      if iv.length = 16 then .ok (ctrXor (keystream iv) ct)
      else .error "Invalid initialization vector".toList
    | _, _ => .error "Decryption failed".toList
  | _ => .error "Invalid encrypted text format".toList

theorem hexDigitVal_hexDigit : ∀ n < 16, hexDigitVal (hexDigit n) = some n := by
  decide

theorem hexDigit_ne_colon : ∀ n < 16, hexDigit n ≠ ':' := by decide

theorem colon_not_mem_byteToHex {b : Nat} (hb : b < 256) : ':' ∉ byteToHex b := by
  have h1 : b / 16 < 16 := Nat.div_lt_of_lt_mul (by omega)
  have h2 : b % 16 < 16 := Nat.mod_lt _ (by omega)
  intro hmem
  rcases List.mem_pair.mp hmem with h | h
  · exact hexDigit_ne_colon _ h1 h.symm
  · exact hexDigit_ne_colon _ h2 h.symm

theorem colon_not_mem_hexEncode : ∀ {bs : List Nat}, (∀ b ∈ bs, b < 256) →
    ':' ∉ hexEncode bs := by
  intro bs
  induction bs with
  | nil => intro _; simp [hexEncode]
  | cons b rest ih =>
    intro hb hmem
    rcases List.mem_append.mp hmem with h | h
    · exact colon_not_mem_byteToHex (hb b (List.mem_cons_self b rest)) h
    · exact ih (fun x hx => hb x (List.mem_cons_of_mem b hx)) h

theorem hexDecode_byteToHex_append {b : Nat} (hb : b < 256) (rest : JStr) :
    hexDecode (byteToHex b ++ rest) =
      (hexDecode rest).map (fun bs => b :: bs) := by
  have h1 : b / 16 < 16 := Nat.div_lt_of_lt_mul (by omega)
  have h2 : b % 16 < 16 := Nat.mod_lt _ (by omega)
  have e1 := hexDigitVal_hexDigit _ h1
  have e2 := hexDigitVal_hexDigit _ h2
  have hb' : 16 * (b / 16) + b % 16 = b := by omega
  cases hr : hexDecode rest with
  | none => simp [byteToHex, hexDecode, e1, e2, hr, Option.bind]
  | some bs => simp [byteToHex, hexDecode, e1, e2, hr, Option.bind, hb']

theorem hexDecode_hexEncode : ∀ {bs : List Nat}, (∀ b ∈ bs, b < 256) →
    hexDecode (hexEncode bs) = some bs := by
  intro bs
  induction bs with
  | nil => intro _; rfl
  | cons b rest ih =>
    intro hb
    have hbb : b < 256 := hb b (List.mem_cons_self b rest)
    have hrest : ∀ x ∈ rest, x < 256 := fun x hx => hb x (List.mem_cons_of_mem b hx)
    simp only [hexEncode]
    rw [hexDecode_byteToHex_append hbb, ih hrest]
    rfl

theorem ctrXorFrom_lt : ∀ {data : List Nat} (i : Nat), (∀ b ∈ data, b < 256) →
    ∀ b ∈ ctrXorFrom ks i data, b < 256 := by
  intro data
  induction data with
  | nil => intro i _ b h; exact absurd h (List.not_mem_nil b)
  | cons x xs ih =>
    intro i hd b hb
    rcases List.mem_cons.mp hb with h | h
    · subst h
      have hx : x < 256 := hd x (List.mem_cons_self x xs)
      have hk : ks i % 256 < 256 := Nat.mod_lt _ (by omega)
      exact @Nat.xor_lt_two_pow x (ks i % 256) 8 hx hk
    · exact ih (i + 1) (fun y hy => hd y (List.mem_cons_of_mem x hy)) b h

theorem ctrXorFrom_involutive (ks : Nat → Nat) :
    ∀ (data : List Nat) (i : Nat), ctrXorFrom ks i (ctrXorFrom ks i data) = data := by
  intro data
  induction data with
  | nil => intro i; rfl
  | cons x xs ih =>
    intro i
    simp only [ctrXorFrom, ih (i + 1), List.cons.injEq, and_true]
    rw [Nat.xor_assoc, Nat.xor_self, Nat.xor_zero]

theorem ctrXorFrom_length (ks : Nat → Nat) :
    ∀ (data : List Nat) (i : Nat), (ctrXorFrom ks i data).length = data.length := by
  intro data
  induction data with
  | nil => intro i; rfl
  | cons x xs ih => intro i; simp [ctrXorFrom, ih (i + 1)]

/-- C2: for every plaintext byte string `s`, decrypting the encryption of `s`
under the same process-wide key recovers exactly `s`.  The envelope is hex of
the (per-call random, 16-byte) initialization vector, a colon, and hex of the
ciphertext; `keystream` abstracts the AES-256-CTR cipher. -/
theorem decrypt_encrypt (keystream : List Nat → Nat → Nat) (iv s : List Nat)
    (hivlen : iv.length = 16) (hiv : ∀ b ∈ iv, b < 256) (hs : ∀ b ∈ s, b < 256) :
    decrypt keystream (encrypt keystream iv s) = .ok s := by
  have hct : ∀ b ∈ ctrXor (keystream iv) s, b < 256 := ctrXorFrom_lt 0 hs
  have hsplit : splitOnChar ':' (encrypt keystream iv s) =
      [hexEncode iv, hexEncode (ctrXor (keystream iv) s)] := by
    rw [encrypt, splitOnChar_append (colon_not_mem_hexEncode hiv),
      splitOnChar_not_mem (colon_not_mem_hexEncode hct)]
  rw [decrypt, hsplit]
  simp only [hexDecode_hexEncode hiv, hexDecode_hexEncode hct]
  rw [if_pos hivlen]
  rw [ctrXor, ctrXor, ctrXorFrom_involutive]

/-- Witness for C2 at a concrete keystream, vector and plaintext. -/
theorem decrypt_encrypt_witness :
    decrypt (fun _ _ => 171) (encrypt (fun _ _ => 171)
      (List.replicate 16 7) [104, 105]) = .ok [104, 105] :=
  decrypt_encrypt (fun _ _ => 171) (List.replicate 16 7) [104, 105]
    (by decide) (by decide) (by decide)

/-! Canonical hashing and tag validation, from src/utility/crypto.js.
JavaScript objects with string values are modelled as association lists in
insertion order; the theorems assume duplicate-free keys, which actual JS
objects always have.  The SHA-256 digest of node:crypto is an abstract
function parameter. -/

/-- Field maps model JavaScript objects whose values are strings. -/
abbrev FieldMap := List (JStr × JStr)

/-- Comparison used by Object.keys(obj).sort(): lexicographic on code units. -/
def lexLe : JStr → JStr → Bool
  | [], _ => true
  | _ :: _, [] => false
  | a :: as, b :: bs =>
    if a < b then true
    else if b < a then false
    else lexLe as bs

/-- Insertion step of the sort of Object.keys(obj).sort(). -/
def insertKey (x : JStr) : List JStr → List JStr
  | [] => [x]
  | y :: ys => if lexLe x y then x :: y :: ys else y :: insertKey x ys

/-- Sorted key list, as produced by Object.keys(obj).sort(): any sort by
code-unit order; the model uses insertion sort, which for the duplicate-free
key lists of JS objects yields the unique sorted arrangement. -/
def sortKeys : List JStr → List JStr
  | [] => []
  | k :: ks => insertKey k (sortKeys ks)

/-- Value access obj[key], as used by createHash over the keys of the object. -/
def lookupVal (m : FieldMap) (k : JStr) : JStr :=
  ((m.find? (fun p => p.1 == k)).map Prod.snd).getD []

/-- From src/utility/crypto.js, `createHash`: the sorted keys rendered as
key:value and joined with the pipe delimiter.  This is the exact string
handed to the SHA-256 digest. -/
def hashInput (m : FieldMap) : JStr :=
  joinChar '|' ((sortKeys (m.map Prod.fst)).map (fun k => k ++ ':' :: lookupVal m k))

/-- From src/utility/crypto.js, `createHash`: digest of the canonical string. -/
def createHash (digest : JStr → JStr) (m : FieldMap) : JStr := digest (hashInput m)

/-- Name of the embedded tag field. -/
def secretKeyField : JStr := "secret_key".toList

/-- Reads field k of an object; none models the undefined value. -/
def getField (m : FieldMap) (k : JStr) : Option JStr :=
  (m.find? (fun p => p.1 == k)).map Prod.snd

/-- Object rest destructuring that drops field k. -/
def removeField (m : FieldMap) (k : JStr) : FieldMap :=
  m.filter (fun p => p.1 != k)

/-- From src/utility/crypto.js, `validateSecretKey`: destructure the tag out,
recompute the canonical hash of the remaining fields and compare strictly.
A missing tag is the undefined value and compares unequal to any digest. -/
def validateSecretKey (digest : JStr → JStr) (m : FieldMap) : Bool :=
  getField m secretKeyField == some (createHash digest (removeField m secretKeyField))

theorem lexLe_total : ∀ (a b : JStr), lexLe a b = true ∨ lexLe b a = true := by
  intro a
  induction a with
  | nil => intro b; exact Or.inl rfl
  | cons x xs ih =>
    intro b
    cases b with
    | nil => exact Or.inr rfl
    | cons y ys =>
      by_cases hxy : x < y
      · exact Or.inl (by simp [lexLe, hxy])
      · by_cases hyx : y < x
        · exact Or.inr (by simp [lexLe, hyx])
        · rcases ih ys with h | h
          · exact Or.inl (by simp [lexLe, hxy, hyx, h])
          · exact Or.inr (by simp [lexLe, hxy, hyx, h])

theorem lexLe_antisymm : ∀ (a b : JStr), lexLe a b = true → lexLe b a = true →
    a = b := by
  intro a
  induction a with
  | nil =>
    intro b _ h2
    cases b with
    | nil => rfl
    | cons y ys => exact absurd h2 (by simp [lexLe])
  | cons x xs ih =>
    intro b h1 h2
    cases b with
    | nil => exact absurd h1 (by simp [lexLe])
    | cons y ys =>
      by_cases hxy : x < y
      · have : ¬ (y < x) := lt_asymm hxy
        simp [lexLe, hxy, this] at h2
      · by_cases hyx : y < x
        · simp [lexLe, hxy, hyx] at h1
        · have hx : x = y := le_antisymm (not_lt.mp hyx) (not_lt.mp hxy)
          subst hx
          simp only [lexLe, lt_irrefl, if_neg (lt_irrefl x)] at h1 h2
          rw [ih ys h1 h2]

theorem lexLe_trans : ∀ (a b c : JStr), lexLe a b = true → lexLe b c = true →
    lexLe a c = true := by
  intro a
  induction a with
  | nil => intro b c _ _; rfl
  | cons x xs ih =>
    intro b c h1 h2
    cases b with
    | nil => exact absurd h1 (by simp [lexLe])
    | cons y ys =>
      cases c with
      | nil => exact absurd h2 (by simp [lexLe])
      | cons z zs =>
        by_cases hxy : x < y
        · by_cases hyz : y < z
          · simp [lexLe, lt_trans hxy hyz]
          · by_cases hzy : z < y
            · simp [lexLe, hyz, hzy] at h2
            · have hy : y = z := le_antisymm (not_lt.mp hzy) (not_lt.mp hyz)
              subst hy
              simp [lexLe, hxy]
        · by_cases hyx : y < x
          · simp [lexLe, hxy, hyx] at h1
          · have hx : x = y := le_antisymm (not_lt.mp hyx) (not_lt.mp hxy)
            subst hx
            simp only [lexLe, if_neg hxy] at h1
            by_cases hxz : x < z
            · simp [lexLe, hxz]
            · by_cases hzx : z < x
              · simp [lexLe, hxz, hzx] at h2
              · simp only [lexLe, if_neg hxz, if_neg hzx] at h2
                simp [lexLe, hxz, hzx, ih ys zs h1 h2]

theorem insertKey_perm (x : JStr) : ∀ (l : List JStr),
    (insertKey x l).Perm (x :: l) := by
  intro l
  induction l with
  | nil => exact List.Perm.refl _
  | cons y ys ih =>
    by_cases h : lexLe x y = true
    · simp only [insertKey, if_pos h]
      exact List.Perm.refl _
    · simp only [insertKey, if_neg h]
      exact (ih.cons y).trans (List.Perm.swap x y ys)

theorem insertKey_sorted {x : JStr} : ∀ {l : List JStr},
    List.Pairwise (fun a b => lexLe a b = true) l →
    List.Pairwise (fun a b => lexLe a b = true) (insertKey x l) := by
  intro l
  induction l with
  | nil => intro _; simp [insertKey]
  | cons y ys ih =>
    intro hp
    rcases List.pairwise_cons.mp hp with ⟨hy, hys⟩
    by_cases h : lexLe x y = true
    · simp only [insertKey, if_pos h]
      refine List.pairwise_cons.mpr ⟨?_, hp⟩
      intro z hz
      rcases List.mem_cons.mp hz with hzy | hzys
      · exact hzy ▸ h
      · exact lexLe_trans x y z h (hy z hzys)
    · simp only [insertKey, if_neg h]
      have hyx : lexLe y x = true := by
        rcases lexLe_total x y with h' | h'
        · exact absurd h' h
        · exact h'
      refine List.pairwise_cons.mpr ⟨?_, ih hys⟩
      intro z hz
      have hz' : z ∈ x :: ys := ((insertKey_perm x ys).mem_iff).mp hz
      rcases List.mem_cons.mp hz' with hzx | hzys
      · exact hzx ▸ hyx
      · exact hy z hzys

theorem sortKeys_perm (l : List JStr) : (sortKeys l).Perm l := by
  induction l with
  | nil => exact List.Perm.refl _
  | cons k ks ih =>
    exact (insertKey_perm k (sortKeys ks)).trans (ih.cons k)

theorem sortKeys_sorted (l : List JStr) :
    List.Pairwise (fun a b => lexLe a b = true) (sortKeys l) := by
  induction l with
  | nil => simp [sortKeys]
  | cons k ks ih => exact insertKey_sorted ih

theorem sortKeys_eq_of_perm {l l' : List JStr} (h : l.Perm l') :
    sortKeys l = sortKeys l' :=
  @List.eq_of_perm_of_sorted _ (fun a b => lexLe a b = true)
    ⟨fun a b h1 h2 => lexLe_antisymm a b h1 h2⟩ _ _
    ((sortKeys_perm l).trans (h.trans (sortKeys_perm l').symm))
    (sortKeys_sorted l) (sortKeys_sorted l')

theorem find?_eq_of_mem_nodup : ∀ {m : FieldMap}, (m.map Prod.fst).Nodup →
    ∀ {k v : JStr}, (k, v) ∈ m → m.find? (fun p => p.1 == k) = some (k, v) := by
  intro m
  induction m with
  | nil => intro _ k v h; exact absurd h (List.not_mem_nil _)
  | cons p rest ih =>
    intro hnd k v hmem
    rw [List.map_cons] at hnd
    have hnd' := List.nodup_cons.mp hnd
    rcases List.mem_cons.mp hmem with h | h
    · subst h
      simp [List.find?_cons]
    · have hk : k ∈ rest.map Prod.fst :=
        List.mem_map.mpr ⟨(k, v), h, rfl⟩
      have hne : (p.1 == k) = false := by
        refine beq_eq_false_iff_ne.mpr ?_
        intro hpk
        exact hnd'.1 (hpk ▸ hk)
      simp [List.find?_cons, hne, ih hnd'.2 h]

theorem lookupVal_eq_of_mem {m : FieldMap} (hnd : (m.map Prod.fst).Nodup)
    {k v : JStr} (hmem : (k, v) ∈ m) : lookupVal m k = v := by
  simp [lookupVal, find?_eq_of_mem_nodup hnd hmem]

/-- C6: the canonical hash depends only on the key-value set: permuting the
insertion order of a duplicate-free field map leaves the digest unchanged,
because keys are sorted lexicographically before joining and digesting. -/
theorem createHash_perm_invariant (digest : JStr → JStr) (m m' : FieldMap)
    (hperm : m.Perm m') (hnd : (m.map Prod.fst).Nodup) :
    createHash digest m = createHash digest m' := by
  have hkeys : (m.map Prod.fst).Perm (m'.map Prod.fst) := hperm.map Prod.fst
  have hsort : sortKeys (m.map Prod.fst) = sortKeys (m'.map Prod.fst) :=
    sortKeys_eq_of_perm hkeys
  have hlook : ∀ k ∈ sortKeys (m.map Prod.fst),
      k ++ ':' :: lookupVal m k = k ++ ':' :: lookupVal m' k := by
    intro k hk
    have hkm : k ∈ m.map Prod.fst := ((sortKeys_perm _).mem_iff).mp hk
    rcases List.mem_map.mp hkm with ⟨p, hp, hpk⟩
    have hmem : (k, p.2) ∈ m := by
      rw [← hpk]
      simpa using hp
    have hmem' : (k, p.2) ∈ m' := hperm.mem_iff.mp hmem
    rw [lookupVal_eq_of_mem hnd hmem, lookupVal_eq_of_mem (hkeys.nodup hnd) hmem']
  rw [createHash, createHash, hashInput, hashInput, ← hsort,
    List.map_congr_left hlook]

/-- Witness for C6 at a concrete two-field map and its swap. -/
theorem createHash_perm_invariant_witness :
    createHash id [(['b'], ['y']), (['a'], ['x'])] =
      createHash id [(['a'], ['x']), (['b'], ['y'])] :=
  createHash_perm_invariant id _ _ (by decide) (by decide)

theorem joinChar_cons {d : Char} {x : JStr} {xs : List JStr} (h : xs ≠ []) :
    joinChar d (x :: xs) = x ++ d :: joinChar d xs := by
  cases xs with
  | nil => exact absurd rfl h
  | cons y ys => rfl

theorem joinChar_one_diff {d : Char} :
    ∀ (pre : List JStr) (x y : JStr) (post : List JStr),
    joinChar d (pre ++ x :: post) = joinChar d (pre ++ y :: post) → x = y := by
  intro pre
  induction pre with
  | nil =>
    intro x y post h
    cases post with
    | nil => simpa [joinChar] using h
    | cons p ps =>
      rw [List.nil_append, List.nil_append, @joinChar_cons d x (p :: ps) (by simp),
        @joinChar_cons d y (p :: ps) (by simp)] at h
      exact List.append_cancel_right h
  | cons q pre ih =>
    intro x y post h
    rw [List.cons_append, List.cons_append,
      @joinChar_cons d q (pre ++ x :: post) (by simp),
      @joinChar_cons d q (pre ++ y :: post) (by simp)] at h
    have h2 := List.append_cancel_left h
    injection h2 with _ h3
    exact ih x y post h3

theorem getField_middle_irrelevant {l₁ l₂ : FieldMap} {k t v v' : JStr}
    (h : k ≠ t) :
    getField (l₁ ++ (k, v) :: l₂) t = getField (l₁ ++ (k, v') :: l₂) t := by
  have hb : (k == t) = false := beq_eq_false_iff_ne.mpr h
  simp [getField, List.find?_append, List.find?_cons, hb]

theorem lookupVal_middle_irrelevant {r₁ r₂ : FieldMap} {k key v v' : JStr}
    (h : key ≠ k) :
    lookupVal (r₁ ++ (k, v) :: r₂) key = lookupVal (r₁ ++ (k, v') :: r₂) key := by
  have hb : (k == key) = false := beq_eq_false_iff_ne.mpr (Ne.symm h)
  simp [lookupVal, List.find?_append, List.find?_cons, hb]

theorem hashInput_eq_val_eq {m m' : FieldMap} {k : JStr}
    (hkeys : m'.map Prod.fst = m.map Prod.fst)
    (hnd : (m.map Prod.fst).Nodup)
    (hk : k ∈ m.map Prod.fst)
    (hagree : ∀ key, key ≠ k → lookupVal m key = lookupVal m' key)
    (heq : hashInput m = hashInput m') :
    lookupVal m k = lookupVal m' k := by
  have hndS : (sortKeys (m.map Prod.fst)).Nodup :=
    ((sortKeys_perm (m.map Prod.fst)).symm).nodup hnd
  have hkS : k ∈ sortKeys (m.map Prod.fst) :=
    ((sortKeys_perm (m.map Prod.fst)).mem_iff).mpr hk
  rcases List.append_of_mem hkS with ⟨s₁, s₂, hs⟩
  have hndsplit : (s₁ ++ k :: s₂).Nodup := hs ▸ hndS
  rcases List.nodup_append.mp hndsplit with ⟨_, hnd2, hdisj⟩
  have hks₁ : k ∉ s₁ := fun hk1 => hdisj hk1 (List.mem_cons_self _ _)
  simp only [hashInput] at heq
  rw [hkeys, hs] at heq
  simp only [List.map_append, List.map_cons] at heq
  have hmap₁ : s₁.map (fun key => key ++ ':' :: lookupVal m key) =
      s₁.map (fun key => key ++ ':' :: lookupVal m' key) :=
    List.map_congr_left (fun a ha => by
      rw [hagree a (fun hak => hks₁ (hak ▸ ha))])
  have hmap₂ : s₂.map (fun key => key ++ ':' :: lookupVal m key) =
      s₂.map (fun key => key ++ ':' :: lookupVal m' key) :=
    List.map_congr_left (fun a ha => by
      rw [hagree a (fun hak => (List.nodup_cons.mp hnd2).1 (hak ▸ ha))])
  rw [hmap₁, hmap₂] at heq
  have hmid := joinChar_one_diff _ _ _ _ heq
  have htail := List.append_cancel_left hmid
  have h2 := congrArg List.tail htail
  simpa using h2

/-- C3: `validateSecretKey` returns true exactly when the embedded tag equals
the canonical hash of the message with the tag field removed; and, with the
digest injective (the ideal model of the collision-resistant SHA-256),
changing the value of any single non-tag field of a validly tagged
duplicate-free message makes validation return false. -/
theorem validateSecretKey_spec (digest : JStr → JStr)
    (hinj : Function.Injective digest) (l₁ l₂ : FieldMap) (k v v' : JStr) :
    (∀ m : FieldMap, validateSecretKey digest m = true ↔
      getField m secretKeyField =
        some (createHash digest (removeField m secretKeyField))) ∧
    (((l₁ ++ (k, v) :: l₂).map Prod.fst).Nodup → k ≠ secretKeyField → v ≠ v' →
      validateSecretKey digest (l₁ ++ (k, v) :: l₂) = true →
      validateSecretKey digest (l₁ ++ (k, v') :: l₂) = false) := by
  refine ⟨fun m => by simp [validateSecretKey], ?_⟩
  intro hnd hkt hvv hval
  have hrm : ∀ w : JStr, removeField (l₁ ++ (k, w) :: l₂) secretKeyField =
      removeField l₁ secretKeyField ++ (k, w) :: removeField l₂ secretKeyField := by
    intro w
    have hb : (k != secretKeyField) = true := by simp [hkt]
    simp [removeField, List.filter_append, List.filter_cons, hb]
  have hsubv : (removeField (l₁ ++ (k, v) :: l₂) secretKeyField).Sublist
      (l₁ ++ (k, v) :: l₂) := List.filter_sublist _
  have hndv : ((removeField (l₁ ++ (k, v) :: l₂) secretKeyField).map
      Prod.fst).Nodup :=
    List.Nodup.sublist (hsubv.map Prod.fst) hnd
  have hkeys : (removeField (l₁ ++ (k, v') :: l₂) secretKeyField).map Prod.fst =
      (removeField (l₁ ++ (k, v) :: l₂) secretKeyField).map Prod.fst := by
    rw [hrm v, hrm v']
    simp
  have hnd' : ((removeField (l₁ ++ (k, v') :: l₂) secretKeyField).map
      Prod.fst).Nodup := by
    rw [hkeys]
    exact hndv
  have hkmem : k ∈ (removeField (l₁ ++ (k, v) :: l₂) secretKeyField).map
      Prod.fst := by
    rw [hrm v]
    simp
  have hagree : ∀ key, key ≠ k →
      lookupVal (removeField (l₁ ++ (k, v) :: l₂) secretKeyField) key =
      lookupVal (removeField (l₁ ++ (k, v') :: l₂) secretKeyField) key := by
    intro key hkey
    rw [hrm v, hrm v']
    exact lookupVal_middle_irrelevant hkey
  have hval1 : getField (l₁ ++ (k, v) :: l₂) secretKeyField =
      some (createHash digest (removeField (l₁ ++ (k, v) :: l₂)
        secretKeyField)) := by
    simpa [validateSecretKey] using hval
  have htag : getField (l₁ ++ (k, v') :: l₂) secretKeyField =
      getField (l₁ ++ (k, v) :: l₂) secretKeyField :=
    (getField_middle_irrelevant hkt).symm
  rw [validateSecretKey, htag, hval1]
  refine beq_eq_false_iff_ne.mpr ?_
  intro habs
  have hdig : createHash digest (removeField (l₁ ++ (k, v) :: l₂)
      secretKeyField) =
      createHash digest (removeField (l₁ ++ (k, v') :: l₂) secretKeyField) := by
    injection habs
  have hhash : hashInput (removeField (l₁ ++ (k, v) :: l₂) secretKeyField) =
      hashInput (removeField (l₁ ++ (k, v') :: l₂) secretKeyField) := hinj hdig
  have hlk := hashInput_eq_val_eq hkeys hndv hkmem hagree hhash
  have hv : lookupVal (removeField (l₁ ++ (k, v) :: l₂) secretKeyField) k = v := by
    rw [hrm v] at hndv ⊢
    exact lookupVal_eq_of_mem hndv (by simp)
  have hv' : lookupVal (removeField (l₁ ++ (k, v') :: l₂) secretKeyField) k = v' := by
    rw [hrm v'] at hnd' ⊢
    exact lookupVal_eq_of_mem hnd' (by simp)
  rw [hv, hv'] at hlk
  exact hvv hlk

/-- Witness for C3: a concrete one-field message with its valid tag, and the
same message with the field value changed, under the identity digest. -/
theorem validateSecretKey_spec_witness :
    validateSecretKey id [(['a'], ['x']),
      (secretKeyField, createHash id [(['a'], ['x'])])] = true ∧
    validateSecretKey id [(['a'], ['y']),
      (secretKeyField, createHash id [(['a'], ['x'])])] = false := by
  have h := validateSecretKey_spec id Function.injective_id []
    [(secretKeyField, createHash id [(['a'], ['x'])])] ['a'] ['x'] ['y']
  exact ⟨by decide, h.2 (by decide) (by decide) (by decide) (by decide)⟩

/-! Time-bucketed aggregation store, from src/models/TimeSeriesData.js.
The MongoDB collection is modelled as the ordered list of documents; each
mongoose call is translated by its documented semantics: findOne and
updateOne act on the first matching document, an array-element filter such
as routes.route: value matches a document when some array element equals the
value, the corresponding $ne filter matches when no element does, and the
positional $ operator updates the first matching array element.  Clock
readings and the random recordId are arguments; the bucket key is the clock
reading truncated to the minute (the source's ISO rendering of the truncated
time is an injective, sortable formatting of that value, modelled by the
minute number itself). -/

/-- One persisted message record (sub-document of a bucket). -/
structure MessageRecord where
  name : JStr
  origin : JStr
  destination : JStr
  timestamp : Nat
  recordId : JStr
deriving DecidableEq

/-- One routes-array entry: a route string with its count. -/
structure RouteCount where
  route : JStr
  count : Nat
deriving DecidableEq

/-- One nameFrequency-array entry: a name with its count. -/
structure NameCount where
  name : JStr
  count : Nat
deriving DecidableEq

/-- One minute-bucket document of the TimeSeriesData collection. -/
structure Bucket where
  minuteBucket : Nat
  timestamp : Nat
  records : List MessageRecord
  recordCount : Nat
  routes : List RouteCount
  nameFrequency : List NameCount
  firstRecordTime : Nat
  lastRecordTime : Nat
  createdAt : Nat
  updatedAt : Nat
deriving DecidableEq

/-- The message fields persisted by the listener. -/
structure Msg where
  name : JStr
  origin : JStr
  destination : JStr
deriving DecidableEq

/-- MongoDB updateOne: apply the update to the first matching document. -/
def updateFirst (p : Bucket → Bool) (f : Bucket → Bucket) :
    List Bucket → List Bucket
  | [] => []
  | b :: bs => if p b then f b :: bs else b :: updateFirst p f bs

/-- Positional $inc on the routes array: bump the count of the first element
matching the queried route. -/
def incFirstRoute (route : JStr) : List RouteCount → List RouteCount
  | [] => []
  | rc :: rcs =>
    if rc.route == route then { rc with count := rc.count + 1 } :: rcs
    else rc :: incFirstRoute route rcs

/-- Positional $inc on the nameFrequency array. -/
def incFirstName (name : JStr) : List NameCount → List NameCount
  | [] => []
  | nc :: ncs =>
    if nc.name == name then { nc with count := nc.count + 1 } :: ncs
    else nc :: incFirstName name ncs

/-- From src/models/TimeSeriesData.js, `updateAggregatedData`: four updateOne
calls in sequence (innermost first): increment an existing route entry, else
push a new one; then the same for the name frequency. -/
def updateAggregatedData (store : List Bucket) (minuteBucket : Nat)
    (route name : JStr) : List Bucket :=
  updateFirst
    (fun b => b.minuteBucket == minuteBucket &&
      !(b.nameFrequency.any (fun nc => nc.name == name)))
    (fun b => { b with nameFrequency := b.nameFrequency ++ [⟨name, 1⟩] })
    (updateFirst
      (fun b => b.minuteBucket == minuteBucket &&
        b.nameFrequency.any (fun nc => nc.name == name))
      (fun b => { b with nameFrequency := incFirstName name b.nameFrequency })
      (updateFirst
        (fun b => b.minuteBucket == minuteBucket &&
          !(b.routes.any (fun rc => rc.route == route)))
        (fun b => { b with routes := b.routes ++ [⟨route, 1⟩] })
        (updateFirst
          (fun b => b.minuteBucket == minuteBucket &&
            b.routes.any (fun rc => rc.route == route))
          (fun b => { b with routes := incFirstRoute route b.routes })
          store)))

/-- From src/models/TimeSeriesData.js, `addRecord`: truncate the clock to the
minute, build the record, findOne by the bucket key, then either push the
record into the existing document (incrementing recordCount and refreshing
lastRecordTime and updatedAt) or create a fresh one-record document with
empty counter arrays; finally update the aggregated counters. -/
def addRecord (store : List Bucket) (msg : Msg) (now : Nat) (rid : JStr) :
    List Bucket :=
  let minuteBucket := now / 60000
  let record : MessageRecord := ⟨msg.name, msg.origin, msg.destination, now, rid⟩
  let route := msg.origin ++ '-' :: '>' :: msg.destination
  let store1 :=
    match store.find? (fun b => b.minuteBucket == minuteBucket) with
    | some _ => updateFirst (fun b => b.minuteBucket == minuteBucket)
        (fun b => { b with
          records := b.records ++ [record],
          recordCount := b.recordCount + 1,
          lastRecordTime := now,
          updatedAt := now }) store
    | none => store ++ [{
        minuteBucket := minuteBucket,
        timestamp := minuteBucket * 60000,
        records := [record],
        recordCount := 1,
        routes := [],
        nameFrequency := [],
        firstRecordTime := now,
        lastRecordTime := now,
        createdAt := now,
        updatedAt := now }]
  updateAggregatedData store1 minuteBucket route msg.name

/-- Total of the per-route counters of a bucket. -/
def routeTotal (b : Bucket) : Nat := (b.routes.map RouteCount.count).sum

/-- Total of the per-name counters of a bucket. -/
def nameTotal (b : Bucket) : Nat := (b.nameFrequency.map NameCount.count).sum

/-- A sequence of addRecord calls; each input carries the message, the clock
reading, and the random id. -/
def appendAll (store : List Bucket) : List (Msg × Nat × JStr) → List Bucket
  | [] => store
  | x :: xs => appendAll (addRecord store x.1 x.2.1 x.2.2) xs

theorem updateFirst_no_match {p : Bucket → Bool} {f : Bucket → Bucket} :
    ∀ {store : List Bucket}, (∀ x ∈ store, p x = false) →
    updateFirst p f store = store := by
  intro store
  induction store with
  | nil => intro _; rfl
  | cons c cs ih =>
    intro h
    have hc := h c (List.mem_cons_self c cs)
    simp [updateFirst, hc, ih (fun x hx => h x (List.mem_cons_of_mem c hx))]

theorem updateFirst_append_last {p : Bucket → Bool} {f : Bucket → Bucket}
    {b : Bucket} : ∀ {store : List Bucket}, (∀ x ∈ store, p x = false) →
    p b = true → updateFirst p f (store ++ [b]) = store ++ [f b] := by
  intro store
  induction store with
  | nil =>
    intro _ hb
    simp [updateFirst, hb]
  | cons c cs ih =>
    intro h hb
    have hc := h c (List.mem_cons_self c cs)
    simp [updateFirst, hc, ih (fun x hx => h x (List.mem_cons_of_mem c hx)) hb]

theorem find?_append_last {k : Nat} {b : Bucket} :
    ∀ {store : List Bucket}, (∀ x ∈ store, x.minuteBucket ≠ k) →
    b.minuteBucket = k →
    (store ++ [b]).find? (fun x => x.minuteBucket == k) = some b := by
  intro store
  induction store with
  | nil =>
    intro _ hb
    simp [List.find?, hb]
  | cons c cs ih =>
    intro h hb
    have hc : (c.minuteBucket == k) = false :=
      beq_eq_false_iff_ne.mpr (h c (List.mem_cons_self c cs))
    simp [List.find?_cons, hc, ih (fun x hx => h x (List.mem_cons_of_mem c hx)) hb]

theorem keyPred_false {x : Bucket} {k : Nat} (h : x.minuteBucket ≠ k)
    (q : Bucket → Bool) : (x.minuteBucket == k && q x) = false := by
  simp [beq_eq_false_iff_ne.mpr h]

theorem incFirstRoute_total {route : JStr} : ∀ {l : List RouteCount},
    l.any (fun rc => rc.route == route) = true →
    ((incFirstRoute route l).map RouteCount.count).sum =
      (l.map RouteCount.count).sum + 1 := by
  intro l
  induction l with
  | nil => intro h; simp at h
  | cons rc rcs ih =>
    intro h
    by_cases hrc : (rc.route == route) = true
    · simp only [incFirstRoute, if_pos hrc, List.map_cons, List.sum_cons]
      omega
    · have hrc' : (rc.route == route) = false := by simpa using hrc
      have h' : rcs.any (fun rc => rc.route == route) = true := by
        simpa [hrc'] using h
      simp only [incFirstRoute, if_neg hrc, List.map_cons,
        List.sum_cons, ih h']
      omega

theorem incFirstName_total {name : JStr} : ∀ {l : List NameCount},
    l.any (fun nc => nc.name == name) = true →
    ((incFirstName name l).map NameCount.count).sum =
      (l.map NameCount.count).sum + 1 := by
  intro l
  induction l with
  | nil => intro h; simp at h
  | cons nc ncs ih =>
    intro h
    by_cases hnc : (nc.name == name) = true
    · simp only [incFirstName, if_pos hnc, List.map_cons, List.sum_cons]
      omega
    · have hnc' : (nc.name == name) = false := by simpa using hnc
      have h' : ncs.any (fun nc => nc.name == name) = true := by
        simpa [hnc'] using h
      simp only [incFirstName, if_neg hnc, List.map_cons,
        List.sum_cons, ih h']
      omega

theorem incFirstRoute_any (route : JStr) : ∀ (l : List RouteCount),
    (incFirstRoute route l).any (fun rc => rc.route == route) =
      l.any (fun rc => rc.route == route) := by
  intro l
  induction l with
  | nil => rfl
  | cons rc rcs ih =>
    by_cases hrc : (rc.route == route) = true
    · simp [incFirstRoute, hrc]
    · have hrc' : (rc.route == route) = false := by simpa using hrc
      simp [incFirstRoute, hrc', ih]

theorem incFirstName_any (name : JStr) : ∀ (l : List NameCount),
    (incFirstName name l).any (fun nc => nc.name == name) =
      l.any (fun nc => nc.name == name) := by
  intro l
  induction l with
  | nil => rfl
  | cons nc ncs ih =>
    by_cases hnc : (nc.name == name) = true
    · simp [incFirstName, hnc]
    · have hnc' : (nc.name == name) = false := by simpa using hnc
      simp [incFirstName, hnc', ih]

theorem route_phase_last {store : List Bucket} {b : Bucket} {k : Nat}
    {route : JStr}
    (hother : ∀ x ∈ store, x.minuteBucket ≠ k)
    (hb : (b.minuteBucket == k) = true) :
    ∃ rts,
      updateFirst
        (fun x => x.minuteBucket == k &&
          !(x.routes.any (fun rc => rc.route == route)))
        (fun x => { x with routes := x.routes ++ [⟨route, 1⟩] })
        (updateFirst
          (fun x => x.minuteBucket == k &&
            x.routes.any (fun rc => rc.route == route))
          (fun x => { x with routes := incFirstRoute route x.routes })
          (store ++ [b]))
      = store ++ [{ b with routes := rts }] ∧
      (rts.map RouteCount.count).sum = (b.routes.map RouteCount.count).sum + 1 := by
  have hstore1 : ∀ x ∈ store,
      (x.minuteBucket == k && x.routes.any (fun rc => rc.route == route))
        = false :=
    fun x hx => keyPred_false (hother x hx)
      (fun y => y.routes.any (fun rc => rc.route == route))
  have hstore2 : ∀ x ∈ store,
      (x.minuteBucket == k && !(x.routes.any (fun rc => rc.route == route)))
        = false :=
    fun x hx => keyPred_false (hother x hx)
      (fun y => !(y.routes.any (fun rc => rc.route == route)))
  by_cases hr : b.routes.any (fun rc => rc.route == route) = true
  · refine ⟨incFirstRoute route b.routes, ?_, incFirstRoute_total hr⟩
    rw [updateFirst_append_last hstore1 (by simp [hb, hr])]
    apply updateFirst_no_match
    intro x hx
    rcases List.mem_append.mp hx with hxs | hxb
    · exact hstore2 x hxs
    · have hxb' : x = { b with routes := incFirstRoute route b.routes } := by
        simpa using hxb
      subst hxb'
      simp [incFirstRoute_any, hr]
  · have hr' : b.routes.any (fun rc => rc.route == route) = false := by
      simpa using hr
    refine ⟨b.routes ++ [⟨route, 1⟩], ?_, by simp⟩
    have hno1 : ∀ x ∈ store ++ [b],
        (x.minuteBucket == k && x.routes.any (fun rc => rc.route == route))
          = false := by
      intro x hx
      rcases List.mem_append.mp hx with hxs | hxb
      · exact hstore1 x hxs
      · have hxb' : x = b := by simpa using hxb
        subst hxb'
        simp [hr']
    rw [updateFirst_no_match hno1]
    exact updateFirst_append_last hstore2 (by simp [hb, hr'])

theorem name_phase_last {store : List Bucket} {b : Bucket} {k : Nat}
    {name : JStr}
    (hother : ∀ x ∈ store, x.minuteBucket ≠ k)
    (hb : (b.minuteBucket == k) = true) :
    ∃ nms,
      updateFirst
        (fun x => x.minuteBucket == k &&
          !(x.nameFrequency.any (fun nc => nc.name == name)))
        (fun x => { x with nameFrequency := x.nameFrequency ++ [⟨name, 1⟩] })
        (updateFirst
          (fun x => x.minuteBucket == k &&
            x.nameFrequency.any (fun nc => nc.name == name))
          (fun x => { x with nameFrequency := incFirstName name x.nameFrequency })
          (store ++ [b]))
      = store ++ [{ b with nameFrequency := nms }] ∧
      (nms.map NameCount.count).sum =
        (b.nameFrequency.map NameCount.count).sum + 1 := by
  have hstore1 : ∀ x ∈ store,
      (x.minuteBucket == k && x.nameFrequency.any (fun nc => nc.name == name))
        = false :=
    fun x hx => keyPred_false (hother x hx)
      (fun y => y.nameFrequency.any (fun nc => nc.name == name))
  have hstore2 : ∀ x ∈ store,
      (x.minuteBucket == k && !(x.nameFrequency.any (fun nc => nc.name == name)))
        = false :=
    fun x hx => keyPred_false (hother x hx)
      (fun y => !(y.nameFrequency.any (fun nc => nc.name == name)))
  by_cases hr : b.nameFrequency.any (fun nc => nc.name == name) = true
  · refine ⟨incFirstName name b.nameFrequency, ?_, incFirstName_total hr⟩
    rw [updateFirst_append_last hstore1 (by simp [hb, hr])]
    apply updateFirst_no_match
    intro x hx
    rcases List.mem_append.mp hx with hxs | hxb
    · exact hstore2 x hxs
    · have hxb' : x = { b with nameFrequency := incFirstName name b.nameFrequency } := by
        simpa using hxb
      subst hxb'
      simp [incFirstName_any, hr]
  · have hr' : b.nameFrequency.any (fun nc => nc.name == name) = false := by
      simpa using hr
    refine ⟨b.nameFrequency ++ [⟨name, 1⟩], ?_, by simp⟩
    have hno1 : ∀ x ∈ store ++ [b],
        (x.minuteBucket == k && x.nameFrequency.any (fun nc => nc.name == name))
          = false := by
      intro x hx
      rcases List.mem_append.mp hx with hxs | hxb
      · exact hstore1 x hxs
      · have hxb' : x = b := by simpa using hxb
        subst hxb'
        simp [hr']
    rw [updateFirst_no_match hno1]
    exact updateFirst_append_last hstore2 (by simp [hb, hr'])

theorem updateAgg_last {store : List Bucket} {b : Bucket} {k : Nat}
    {route name : JStr}
    (hother : ∀ x ∈ store, x.minuteBucket ≠ k) (hb : b.minuteBucket = k) :
    ∃ b', updateAggregatedData (store ++ [b]) k route name = store ++ [b'] ∧
      b'.minuteBucket = k ∧ b'.records = b.records ∧
      b'.recordCount = b.recordCount ∧
      routeTotal b' = routeTotal b + 1 ∧ nameTotal b' = nameTotal b + 1 := by
  have hbk : (b.minuteBucket == k) = true := beq_iff_eq.mpr hb
  obtain ⟨rts, hroute, hrsum⟩ :=
    @route_phase_last store b k route hother hbk
  have hbk2 : (({ b with routes := rts } : Bucket).minuteBucket == k) = true := hbk
  obtain ⟨nms, hname, hnsum⟩ :=
    @name_phase_last store { b with routes := rts } k name hother hbk2
  refine ⟨{ b with routes := rts, nameFrequency := nms }, ?_, hb, rfl, rfl, ?_, ?_⟩
  · rw [updateAggregatedData, hroute, hname]
  · simpa [routeTotal] using hrsum
  · simpa [nameTotal] using hnsum

theorem addRecord_fresh {store : List Bucket} {msg : Msg} {now : Nat}
    {rid : JStr} {k : Nat} (hk : now / 60000 = k)
    (hother : ∀ x ∈ store, x.minuteBucket ≠ k) :
    ∃ b', addRecord store msg now rid = store ++ [b'] ∧
      b'.minuteBucket = k ∧ b'.recordCount = 1 ∧
      b'.records.length = 1 ∧ routeTotal b' = 1 ∧ nameTotal b' = 1 := by
  subst hk
  have hfind : store.find? (fun b => b.minuteBucket == now / 60000) = none :=
    List.find?_eq_none.mpr (fun x hx h =>
      hother x hx (by simpa using h))
  rw [addRecord]
  simp only [hfind]
  obtain ⟨b', he, hbk, hrec, hcount, hrt, hnt⟩ :=
    @updateAgg_last store {
      minuteBucket := now / 60000,
      timestamp := now / 60000 * 60000,
      records := [⟨msg.name, msg.origin, msg.destination, now, rid⟩],
      recordCount := 1,
      routes := [],
      nameFrequency := [],
      firstRecordTime := now,
      lastRecordTime := now,
      createdAt := now,
      updatedAt := now } (now / 60000)
      (msg.origin ++ '-' :: '>' :: msg.destination) msg.name hother rfl
  refine ⟨b', he, hbk, ?_, ?_, ?_, ?_⟩
  · exact hcount
  · rw [hrec]
    rfl
  · simpa [routeTotal] using hrt
  · simpa [nameTotal] using hnt

theorem addRecord_existing {store : List Bucket} {b : Bucket} {msg : Msg}
    {now : Nat} {rid : JStr} {k : Nat} (hk : now / 60000 = k)
    (hother : ∀ x ∈ store, x.minuteBucket ≠ k) (hb : b.minuteBucket = k) :
    ∃ b', addRecord (store ++ [b]) msg now rid = store ++ [b'] ∧
      b'.minuteBucket = k ∧
      b'.recordCount = b.recordCount + 1 ∧
      b'.records.length = b.records.length + 1 ∧
      routeTotal b' = routeTotal b + 1 ∧
      nameTotal b' = nameTotal b + 1 := by
  subst hk
  have hfind := @find?_append_last (now / 60000) b store hother hb
  rw [addRecord]
  simp only [hfind]
  have hupd : updateFirst (fun x => x.minuteBucket == now / 60000)
      (fun x => { x with
        records := x.records ++ [⟨msg.name, msg.origin, msg.destination, now, rid⟩],
        recordCount := x.recordCount + 1,
        lastRecordTime := now,
        updatedAt := now }) (store ++ [b]) =
      store ++ [{ b with
        records := b.records ++ [⟨msg.name, msg.origin, msg.destination, now, rid⟩],
        recordCount := b.recordCount + 1,
        lastRecordTime := now,
        updatedAt := now }] :=
    updateFirst_append_last
      (fun x hx => beq_eq_false_iff_ne.mpr (hother x hx))
      (beq_iff_eq.mpr hb)
  rw [hupd]
  obtain ⟨b', he, hbk, hrec, hcount, hrt, hnt⟩ :=
    @updateAgg_last store { b with
      records := b.records ++ [⟨msg.name, msg.origin, msg.destination, now, rid⟩],
      recordCount := b.recordCount + 1,
      lastRecordTime := now,
      updatedAt := now } (now / 60000)
      (msg.origin ++ '-' :: '>' :: msg.destination) msg.name hother hb
  refine ⟨b', he, hbk, ?_, ?_, ?_, ?_⟩
  · exact hcount
  · rw [hrec]
    simp
  · simpa [routeTotal] using hrt
  · simpa [nameTotal] using hnt

theorem appendAll_last_invariant :
    ∀ (inputs : List (Msg × Nat × JStr)) (store : List Bucket) (b : Bucket)
      (k : Nat),
    (∀ x ∈ store, x.minuteBucket ≠ k) → b.minuteBucket = k →
    (∀ i ∈ inputs, i.2.1 / 60000 = k) →
    ∃ b', appendAll (store ++ [b]) inputs = store ++ [b'] ∧
      b'.minuteBucket = k ∧
      b'.recordCount = b.recordCount + inputs.length ∧
      b'.records.length = b.records.length + inputs.length ∧
      routeTotal b' = routeTotal b + inputs.length ∧
      nameTotal b' = nameTotal b + inputs.length := by
  intro inputs
  induction inputs with
  | nil =>
    intro store b k h1 h2 _
    exact ⟨b, rfl, h2, by simp, by simp, by simp, by simp⟩
  | cons x xs ih =>
    intro store b k h1 h2 hmin
    have hk : x.2.1 / 60000 = k := hmin x (List.mem_cons_self x xs)
    obtain ⟨b1, he1, hb1k, hc1, hl1, hr1, hn1⟩ :=
      @addRecord_existing store b x.1 x.2.1 x.2.2 k hk h1 h2
    obtain ⟨b', he, hbk, hc, hl, hr, hn⟩ :=
      ih store b1 k h1 hb1k (fun i hi => hmin i (List.mem_cons_of_mem x hi))
    refine ⟨b', ?_, hbk, ?_, ?_, ?_, ?_⟩
    · simp only [appendAll]
      rw [he1]
      exact he
    · rw [hc, hc1, List.length_cons]
      omega
    · rw [hl, hl1, List.length_cons]
      omega
    · rw [hr, hr1, List.length_cons]
      omega
    · rw [hn, hn1, List.length_cons]
      omega

/-- C4: after any nonempty sequence of N successful append calls all
targeting the same minute, starting from a store with no bucket for that
minute, the store gains exactly one bucket for that minute, and that bucket
satisfies recordCount = N, N stored records, and route counters and name
counters each summing to N. -/
theorem addRecord_bucket_invariant (store : List Bucket)
    (inputs : List (Msg × Nat × JStr)) (k : Nat)
    (hne : inputs ≠ [])
    (hother : ∀ x ∈ store, x.minuteBucket ≠ k)
    (hmin : ∀ i ∈ inputs, i.2.1 / 60000 = k) :
    ∃ b, appendAll store inputs = store ++ [b] ∧
      (appendAll store inputs).find? (fun x => x.minuteBucket == k) = some b ∧
      b.minuteBucket = k ∧
      b.recordCount = inputs.length ∧
      b.records.length = inputs.length ∧
      routeTotal b = inputs.length ∧
      nameTotal b = inputs.length := by
  cases inputs with
  | nil => exact absurd rfl hne
  | cons x xs =>
    have hk : x.2.1 / 60000 = k := hmin x (List.mem_cons_self x xs)
    obtain ⟨b1, he1, hb1k, hc1, hl1, hr1, hn1⟩ :=
      @addRecord_fresh store x.1 x.2.1 x.2.2 k hk hother
    obtain ⟨b', he, hbk, hc, hl, hr, hn⟩ :=
      appendAll_last_invariant xs store b1 k hother hb1k
        (fun i hi => hmin i (List.mem_cons_of_mem x hi))
    have hfinal : appendAll store (x :: xs) = store ++ [b'] := by
      simp only [appendAll]
      rw [he1]
      exact he
    refine ⟨b', hfinal, ?_, hbk, ?_, ?_, ?_, ?_⟩
    · rw [hfinal]
      exact find?_append_last hother hbk
    · rw [hc, hc1, List.length_cons]
      omega
    · rw [hl, hl1, List.length_cons]
      omega
    · rw [hr, hr1, List.length_cons]
      omega
    · rw [hn, hn1, List.length_cons]
      omega

/-- Witness for C4: two appends in the same minute starting from the empty
store. -/
theorem addRecord_bucket_invariant_witness :
    ∃ b, appendAll []
        [(⟨['n'], ['o'], ['d']⟩, 60000, ['r', '1']),
         (⟨['m'], ['o'], ['e']⟩, 60050, ['r', '2'])] = [] ++ [b] ∧
      (appendAll []
        [(⟨['n'], ['o'], ['d']⟩, 60000, ['r', '1']),
         (⟨['m'], ['o'], ['e']⟩, 60050, ['r', '2'])]).find?
        (fun x => x.minuteBucket == 1) = some b ∧
      b.minuteBucket = 1 ∧ b.recordCount = 2 ∧ b.records.length = 2 ∧
      routeTotal b = 2 ∧ nameTotal b = 2 :=
  addRecord_bucket_invariant []
    [(⟨['n'], ['o'], ['d']⟩, 60000, ['r', '1']),
     (⟨['m'], ['o'], ['e']⟩, 60050, ['r', '2'])] 1
    (by decide) (by decide) (by decide)

/-! Ingestion pipeline, from src/services/listener/listener.js.  `JSON.parse`
is the abstract parameter `parseJson` (none models a parse exception), the
AES keystream and SHA-256 digest are the parameters of the crypto layer
above.  A failure of the MongoDB write is external to the repository's code
and is injected per item as `dbFail`; the persistence clock and recordId
randomness are injected per item as `nowAt` and `ridAt`. -/

/-- Per-item outcome object of processEncryptedMessage. -/
structure ItemResult where
  valid : Bool
  saved : Bool
deriving DecidableEq

/-- Per-batch results accumulator of handleMessageStream. -/
structure BatchResults where
  messageCount : Nat
  processedCount : Nat
  validCount : Nat
  invalidCount : Nat
  savedCount : Nat
  errors : List (Nat × JStr)
deriving DecidableEq

/-- Process-wide ProcessingStats counters. -/
structure Stats where
  totalReceived : Nat
  totalProcessed : Nat
  totalValid : Nat
  totalInvalid : Nat
  totalSaved : Nat
  errors : Nat
deriving DecidableEq

/-- Events emitted back on the socket by the batch handler. -/
inductive Emitted where
  | ack (r : BatchResults)
  | processingError (msg : JStr)
deriving DecidableEq

/-- Extraction of the persisted fields from the parsed object, as addRecord
reads them. -/
def msgOfFields (m : FieldMap) : Msg :=
  ⟨(getField m "name".toList).getD [],
   (getField m "origin".toList).getD [],
   (getField m "destination".toList).getD []⟩

/-- The try block of processEncryptedMessage: decrypt, JSON.parse, tag
validation, then the persistence write.  An error value models a thrown
exception; an invalid tag is a normal return, not an exception. -/
def processBody (keystream : List Nat → Nat → Nat) (digest : JStr → JStr)
    (parseJson : List Nat → Option FieldMap) (dbFail : Bool) (now : Nat)
    (rid : JStr) (store : List Bucket) (env : JStr) :
    Except JStr (ItemResult × List Bucket) :=
  match decrypt keystream env with
  | .error e => .error e
  | .ok plain =>
    match parseJson plain with
    | none => .error "Unexpected token in JSON".toList
    | some obj =>
      if validateSecretKey digest obj then
        if dbFail then .error "Failed to add record".toList
        else .ok (⟨true, true⟩,
          addRecord store (msgOfFields (removeField obj secretKeyField)) now rid)
      else .ok (⟨false, false⟩, store)

/-- From src/services/listener/listener.js, `processEncryptedMessage`: the
whole body is wrapped in try/catch, and the catch returns a normal
valid:false, saved:false result — the function always returns normally. -/
def processEncryptedMessage (keystream : List Nat → Nat → Nat)
    (digest : JStr → JStr) (parseJson : List Nat → Option FieldMap)
    (dbFail : Bool) (now : Nat) (rid : JStr) (store : List Bucket)
    (env : JStr) : Except JStr (ItemResult × List Bucket) :=
  match processBody keystream digest parseJson dbFail now rid store env with
  | .error _ => .ok (⟨false, false⟩, store)
  | .ok r => .ok r

/-- The outcome flags of one item, which do not depend on the store. -/
def itemFlags (keystream : List Nat → Nat → Nat) (digest : JStr → JStr)
    (parseJson : List Nat → Option FieldMap) (dbFail : Bool) (env : JStr) :
    ItemResult :=
  match decrypt keystream env with
  | .error _ => ⟨false, false⟩
  | .ok plain =>
    match parseJson plain with
    | none => ⟨false, false⟩
    | some obj =>
      if validateSecretKey digest obj then
        if dbFail then ⟨false, false⟩ else ⟨true, true⟩
      else ⟨false, false⟩

/-- The per-item loop of handleMessageStream: fold each item's outcome into
the batch results; a thrown exception would be recorded in the errors list
without counting the item as processed. -/
def runItems (keystream : List Nat → Nat → Nat) (digest : JStr → JStr)
    (parseJson : List Nat → Option FieldMap) (dbFail : Nat → Bool)
    (nowAt : Nat → Nat) (ridAt : Nat → JStr) :
    List JStr → Nat → BatchResults → List Bucket → BatchResults × List Bucket
  | [], _, res, store => (res, store)
  | env :: rest, i, res, store =>
    match processEncryptedMessage keystream digest parseJson (dbFail i)
        (nowAt i) (ridAt i) store env with
    | .ok (item, store') =>
      runItems keystream digest parseJson dbFail nowAt ridAt rest (i + 1)
        { res with
          processedCount := res.processedCount + 1,
          validCount := res.validCount + (if item.valid then 1 else 0),
          invalidCount := res.invalidCount + (if item.valid then 0 else 1),
          savedCount := res.savedCount +
            (if item.valid && item.saved then 1 else 0) } store'
    | .error e =>
      runItems keystream digest parseJson dbFail nowAt ridAt rest (i + 1)
        { res with errors := res.errors ++ [(i, e)] } store

/-- From src/services/listener/listener.js, `handleMessageStream`: decode the
stream (a decode failure reaches the outer catch, which emits a
processing-error event and leaves both the stats and the store untouched),
add the batch size to totalReceived, run the per-item loop sequentially,
fold the batch results into the process-wide stats, and emit the
acknowledgment. -/
def handleMessageStream (keystream : List Nat → Nat → Nat)
    (digest : JStr → JStr) (parseJson : List Nat → Option FieldMap)
    (dbFail : Nat → Bool) (nowAt : Nat → Nat) (ridAt : Nat → JStr)
    (stats : Stats) (store : List Bucket) (data : JsVal) :
    Stats × List Bucket × Emitted :=
  match parseMessageStream data with
  | .error e => (stats, store, .processingError e)
  | .ok encryptedMessages =>
    let stats1 := { stats with
      totalReceived := stats.totalReceived + encryptedMessages.length }
    let rs := runItems keystream digest parseJson dbFail nowAt ridAt
      encryptedMessages 0 ⟨encryptedMessages.length, 0, 0, 0, 0, []⟩ store
    let stats2 := { stats1 with
      totalProcessed := stats1.totalProcessed + rs.1.processedCount,
      totalValid := stats1.totalValid + rs.1.validCount,
      totalInvalid := stats1.totalInvalid + rs.1.invalidCount,
      totalSaved := stats1.totalSaved + rs.1.savedCount,
      errors := stats1.errors + rs.1.errors.length }
    (stats2, rs.2, .ack rs.1)

/-- Number of items whose flags are valid in a batch, indexed from i. -/
def countValid (keystream : List Nat → Nat → Nat) (digest : JStr → JStr)
    (parseJson : List Nat → Option FieldMap) (dbFail : Nat → Bool) :
    List JStr → Nat → Nat
  | [], _ => 0
  | env :: rest, i =>
    (if (itemFlags keystream digest parseJson (dbFail i) env).valid
      then 1 else 0) +
      countValid keystream digest parseJson dbFail rest (i + 1)

theorem processEncryptedMessage_ok (ks : List Nat → Nat → Nat)
    (digest : JStr → JStr) (pj : List Nat → Option FieldMap) (df : Bool)
    (now : Nat) (rid : JStr) (store : List Bucket) (env : JStr) :
    ∃ store', processEncryptedMessage ks digest pj df now rid store env =
      .ok (itemFlags ks digest pj df env, store') := by
  cases hdec : decrypt ks env with
  | error e =>
    exact ⟨store,
      by simp [processEncryptedMessage, processBody, itemFlags, hdec]⟩
  | ok plain =>
    cases hpj : pj plain with
    | none =>
      exact ⟨store,
        by simp [processEncryptedMessage, processBody, itemFlags, hdec, hpj]⟩
    | some obj =>
      by_cases hval : validateSecretKey digest obj = true
      · cases hdf : df
        · exact ⟨addRecord store (msgOfFields (removeField obj secretKeyField))
            now rid,
            by simp [processEncryptedMessage, processBody, itemFlags, hdec,
              hpj, hval]⟩
        · exact ⟨store,
            by simp [processEncryptedMessage, processBody, itemFlags, hdec,
              hpj, hval]⟩
      · have hval' : validateSecretKey digest obj = false := by simpa using hval
        exact ⟨store,
          by simp [processEncryptedMessage, processBody, itemFlags, hdec,
            hpj, hval']⟩

theorem runItems_spec (ks : List Nat → Nat → Nat) (digest : JStr → JStr)
    (pj : List Nat → Option FieldMap) (dbFail : Nat → Bool)
    (nowAt : Nat → Nat) (ridAt : Nat → JStr) :
    ∀ (envs : List JStr) (i : Nat) (res : BatchResults) (store : List Bucket),
    (runItems ks digest pj dbFail nowAt ridAt envs i res store).1.processedCount
        = res.processedCount + envs.length ∧
    (runItems ks digest pj dbFail nowAt ridAt envs i res store).1.validCount
        = res.validCount + countValid ks digest pj dbFail envs i ∧
    (runItems ks digest pj dbFail nowAt ridAt envs i res store).1.validCount +
      (runItems ks digest pj dbFail nowAt ridAt envs i res store).1.invalidCount
        = res.validCount + res.invalidCount + envs.length ∧
    (runItems ks digest pj dbFail nowAt ridAt envs i res store).1.errors
        = res.errors ∧
    (runItems ks digest pj dbFail nowAt ridAt envs i res store).1.messageCount
        = res.messageCount := by
  intro envs
  induction envs with
  | nil =>
    intro i res store
    exact ⟨by simp [runItems], by simp [runItems, countValid],
      by simp [runItems], by simp [runItems], by simp [runItems]⟩
  | cons env rest ih =>
    intro i res store
    obtain ⟨store', hok⟩ := processEncryptedMessage_ok ks digest pj (dbFail i)
      (nowAt i) (ridAt i) store env
    have hstep : runItems ks digest pj dbFail nowAt ridAt (env :: rest) i
        res store =
        runItems ks digest pj dbFail nowAt ridAt rest (i + 1)
          { res with
            processedCount := res.processedCount + 1,
            validCount := res.validCount +
              (if (itemFlags ks digest pj (dbFail i) env).valid then 1 else 0),
            invalidCount := res.invalidCount +
              (if (itemFlags ks digest pj (dbFail i) env).valid then 0 else 1),
            savedCount := res.savedCount +
              (if (itemFlags ks digest pj (dbFail i) env).valid &&
                  (itemFlags ks digest pj (dbFail i) env).saved
                then 1 else 0) } store' := by
      rw [runItems, hok]
    obtain ⟨h1, h2, h3, h4, h5⟩ := ih (i + 1)
      { res with
        processedCount := res.processedCount + 1,
        validCount := res.validCount +
          (if (itemFlags ks digest pj (dbFail i) env).valid then 1 else 0),
        invalidCount := res.invalidCount +
          (if (itemFlags ks digest pj (dbFail i) env).valid then 0 else 1),
        savedCount := res.savedCount +
          (if (itemFlags ks digest pj (dbFail i) env).valid &&
              (itemFlags ks digest pj (dbFail i) env).saved
            then 1 else 0) } store'
    rw [hstep]
    refine ⟨?_, ?_, ?_, ?_, ?_⟩
    · rw [h1]
      simp only [List.length_cons]
      omega
    · rw [h2]
      simp only [countValid]
      omega
    · rw [h3]
      simp only [List.length_cons]
      by_cases hv : (itemFlags ks digest pj (dbFail i) env).valid = true
      · simp only [hv]
        simp
        omega
      · have hv' : (itemFlags ks digest pj (dbFail i) env).valid = false := by
          simpa using hv
        simp only [hv']
        simp
        omega
    · rw [h4]
    · rw [h5]

theorem countValid_all (ks : List Nat → Nat → Nat) (digest : JStr → JStr)
    (pj : List Nat → Option FieldMap) (dbFail : Nat → Bool) :
    ∀ (envs : List JStr) (i0 : Nat),
    (∀ m (hm : m < envs.length),
      (itemFlags ks digest pj (dbFail (i0 + m)) (envs.get ⟨m, hm⟩)).valid
        = true) →
    countValid ks digest pj dbFail envs i0 = envs.length := by
  intro envs
  induction envs with
  | nil => intro i0 _; rfl
  | cons env rest ih =>
    intro i0 h
    have h0 : (itemFlags ks digest pj (dbFail i0) env).valid = true := by
      have h' := h 0 (Nat.succ_pos _)
      simpa using h'
    have hrest : countValid ks digest pj dbFail rest (i0 + 1) = rest.length := by
      apply ih
      intro m hm
      have heq : i0 + 1 + m = i0 + (m + 1) := by omega
      rw [heq]
      exact h (m + 1) (Nat.succ_lt_succ hm)
    have hunf : countValid ks digest pj dbFail (env :: rest) i0 =
        1 + countValid ks digest pj dbFail rest (i0 + 1) := by
      simp [countValid, h0]
    rw [hunf, hrest, List.length_cons]
    omega

theorem countValid_all_but_one (ks : List Nat → Nat → Nat)
    (digest : JStr → JStr) (pj : List Nat → Option FieldMap)
    (dbFail : Nat → Bool) :
    ∀ (envs : List JStr) (i0 j : Nat) (hj : j < envs.length),
    (itemFlags ks digest pj (dbFail (i0 + j)) (envs.get ⟨j, hj⟩)).valid
      = false →
    (∀ m (hm : m < envs.length), m ≠ j →
      (itemFlags ks digest pj (dbFail (i0 + m)) (envs.get ⟨m, hm⟩)).valid
        = true) →
    countValid ks digest pj dbFail envs i0 = envs.length - 1 := by
  intro envs
  induction envs with
  | nil => intro i0 j hj; exact absurd hj (by simp)
  | cons env rest ih =>
    intro i0 j hj hbad hgood
    cases j with
    | zero =>
      have h0 : (itemFlags ks digest pj (dbFail i0) env).valid = false := by
        simpa using hbad
      have hrest : countValid ks digest pj dbFail rest (i0 + 1)
          = rest.length := by
        apply countValid_all
        intro m hm
        have heq : i0 + 1 + m = i0 + (m + 1) := by omega
        rw [heq]
        exact hgood (m + 1) (Nat.succ_lt_succ hm) (Nat.succ_ne_zero m)
      have hunf : countValid ks digest pj dbFail (env :: rest) i0 =
          countValid ks digest pj dbFail rest (i0 + 1) := by
        simp [countValid, h0]
      rw [hunf, hrest, List.length_cons]
      omega
    | succ j' =>
      have hj' : j' < rest.length := Nat.lt_of_succ_lt_succ hj
      have h0 : (itemFlags ks digest pj (dbFail i0) env).valid = true := by
        have h' := hgood 0 (Nat.succ_pos _) (by simp)
        simpa using h'
      have hbad' : (itemFlags ks digest pj (dbFail (i0 + 1 + j'))
          (rest.get ⟨j', hj'⟩)).valid = false := by
        have heq : i0 + 1 + j' = i0 + (j' + 1) := by omega
        rw [heq]
        exact hbad
      have hgood' : ∀ m (hm : m < rest.length), m ≠ j' →
          (itemFlags ks digest pj (dbFail (i0 + 1 + m))
            (rest.get ⟨m, hm⟩)).valid = true := by
        intro m hm hne
        have heq : i0 + 1 + m = i0 + (m + 1) := by omega
        rw [heq]
        exact hgood (m + 1) (Nat.succ_lt_succ hm) (fun hc => hne (by omega))
      have hrest := ih (i0 + 1) j' hj' hbad' hgood'
      have hunf : countValid ks digest pj dbFail (env :: rest) i0 =
          1 + countValid ks digest pj dbFail rest (i0 + 1) := by
        simp [countValid, h0]
      rw [hunf, hrest, List.length_cons]
      omega

theorem handleMessageStream_ack (ks : List Nat → Nat → Nat)
    (digest : JStr → JStr) (pj : List Nat → Option FieldMap)
    (dbFail : Nat → Bool) (nowAt : Nat → Nat) (ridAt : Nat → JStr)
    (stats : Stats) (store : List Bucket) (data : JsVal) (envs : List JStr)
    (hdec : parseMessageStream data = .ok envs) :
    ∃ stats' store' res,
      handleMessageStream ks digest pj dbFail nowAt ridAt stats store data =
        (stats', store', .ack res) ∧
      res.messageCount = envs.length ∧
      res.processedCount = envs.length ∧
      res.validCount = countValid ks digest pj dbFail envs 0 ∧
      res.validCount + res.invalidCount = envs.length ∧
      res.errors = [] ∧
      stats'.errors = stats.errors ∧
      stats'.totalReceived = stats.totalReceived + envs.length := by
  obtain ⟨h1, h2, h3, h4, h5⟩ := runItems_spec ks digest pj dbFail nowAt ridAt
    envs 0 ⟨envs.length, 0, 0, 0, 0, []⟩ store
  obtain ⟨res, store2, hrs⟩ :
      ∃ res store2, runItems ks digest pj dbFail nowAt ridAt envs 0
        ⟨envs.length, 0, 0, 0, 0, []⟩ store = (res, store2) :=
    ⟨(runItems ks digest pj dbFail nowAt ridAt envs 0
        ⟨envs.length, 0, 0, 0, 0, []⟩ store).1,
     (runItems ks digest pj dbFail nowAt ridAt envs 0
        ⟨envs.length, 0, 0, 0, 0, []⟩ store).2, rfl⟩
  rw [hrs] at h1 h2 h3 h4 h5
  refine ⟨{ stats with
      totalReceived := stats.totalReceived + envs.length,
      totalProcessed := stats.totalProcessed + res.processedCount,
      totalValid := stats.totalValid + res.validCount,
      totalInvalid := stats.totalInvalid + res.invalidCount,
      totalSaved := stats.totalSaved + res.savedCount,
      errors := stats.errors + res.errors.length }, store2, res,
    ?_, ?_, ?_, ?_, ?_, ?_, ?_, ?_⟩
  · rw [handleMessageStream, hdec]
    simp only [hrs]
  · simpa using h5
  · simpa using h1
  · simpa using h2
  · simpa using h3
  · simpa using h4
  · have h4' : res.errors = [] := by simpa using h4
    simp [h4']
  · rfl

theorem itemFlags_invalid_of_malformed (ks : List Nat → Nat → Nat)
    (digest : JStr → JStr) (pj : List Nat → Option FieldMap) (df : Bool)
    (env : JStr)
    (hbad : (∃ e, decrypt ks env = .error e) ∨
      (∃ plain, decrypt ks env = .ok plain ∧ pj plain = none) ∨
      (∃ plain obj, decrypt ks env = .ok plain ∧ pj plain = some obj ∧
        validateSecretKey digest obj = false)) :
    itemFlags ks digest pj df env = ⟨false, false⟩ := by
  rcases hbad with ⟨e, he⟩ | ⟨plain, hd, hp⟩ | ⟨plain, obj, hd, hp, hv⟩
  · simp [itemFlags, he]
  · simp [itemFlags, hd, hp]
  · simp [itemFlags, hd, hp, hv]

/-- C1: for every batch that decodes into N envelopes of which exactly one
(at index j) is malformed — its decryption fails, its plaintext fails to
parse, or its tag validation fails — while every other item processes to
valid and saved, the handler emits an acknowledgment (no exception escapes
the batch loop) with processedCount = N, invalidCount = 1,
validCount = N - 1, and an empty per-item errors list. -/
theorem batch_partial_failure_isolation (ks : List Nat → Nat → Nat)
    (digest : JStr → JStr) (pj : List Nat → Option FieldMap)
    (dbFail : Nat → Bool) (nowAt : Nat → Nat) (ridAt : Nat → JStr)
    (stats : Stats) (store : List Bucket) (data : JsVal) (envs : List JStr)
    (j : Nat) (hj : j < envs.length)
    (hdec : parseMessageStream data = .ok envs)
    (hbad : (∃ e, decrypt ks (envs.get ⟨j, hj⟩) = .error e) ∨
      (∃ plain, decrypt ks (envs.get ⟨j, hj⟩) = .ok plain ∧ pj plain = none) ∨
      (∃ plain obj, decrypt ks (envs.get ⟨j, hj⟩) = .ok plain ∧
        pj plain = some obj ∧ validateSecretKey digest obj = false))
    (hgood : ∀ m (hm : m < envs.length), m ≠ j →
      itemFlags ks digest pj (dbFail m) (envs.get ⟨m, hm⟩) = ⟨true, true⟩) :
    ∃ stats' store' res,
      handleMessageStream ks digest pj dbFail nowAt ridAt stats store data =
        (stats', store', .ack res) ∧
      res.processedCount = envs.length ∧
      res.invalidCount = 1 ∧
      res.validCount = envs.length - 1 ∧
      res.errors = [] := by
  obtain ⟨stats', store', res, hh, hmc, hpc, hvc, hvi, herr, _, _⟩ :=
    handleMessageStream_ack ks digest pj dbFail nowAt ridAt stats store data
      envs hdec
  have hflags : (itemFlags ks digest pj (dbFail j) (envs.get ⟨j, hj⟩)).valid
      = false := by
    rw [itemFlags_invalid_of_malformed ks digest pj (dbFail j) _ hbad]
  have hcv : countValid ks digest pj dbFail envs 0 = envs.length - 1 := by
    apply countValid_all_but_one ks digest pj dbFail envs 0 j hj
    · rw [Nat.zero_add]
      exact hflags
    · intro m hm hne
      rw [Nat.zero_add, hgood m hm hne]
  have hN : 0 < envs.length := Nat.lt_of_le_of_lt (Nat.zero_le j) hj
  refine ⟨stats', store', res, hh, hpc, ?_, ?_, herr⟩
  · omega
  · omega

/-- C10: the per-item processor is total — for every envelope it returns a
normal result object and never throws (the catch-all in the source returns a
valid:false result) — so whenever the wire stream decodes, the emitted
acknowledgment satisfies processedCount = messageCount,
validCount + invalidCount = processedCount, and an empty errors list: the
batch loop's catch branch is unreachable and the process-wide errors counter
receives no item-level contribution. -/
theorem processEncryptedMessage_total (ks : List Nat → Nat → Nat)
    (digest : JStr → JStr) (pj : List Nat → Option FieldMap)
    (dbFail : Nat → Bool) (nowAt : Nat → Nat) (ridAt : Nat → JStr)
    (stats : Stats) (store : List Bucket) (data : JsVal) (envs : List JStr)
    (hdec : parseMessageStream data = .ok envs) :
    (∀ (df : Bool) (now : Nat) (rid : JStr) (st : List Bucket) (env : JStr),
      ∃ r, processEncryptedMessage ks digest pj df now rid st env = .ok r) ∧
    ∃ stats' store' res,
      handleMessageStream ks digest pj dbFail nowAt ridAt stats store data =
        (stats', store', .ack res) ∧
      res.processedCount = res.messageCount ∧
      res.validCount + res.invalidCount = res.processedCount ∧
      res.errors = [] ∧
      stats'.errors = stats.errors := by
  constructor
  · intro df now rid st env
    obtain ⟨st', h⟩ := processEncryptedMessage_ok ks digest pj df now rid st env
    exact ⟨_, h⟩
  · obtain ⟨stats', store', res, hh, hmc, hpc, hvc, hvi, herr, hse, _⟩ :=
      handleMessageStream_ack ks digest pj dbFail nowAt ridAt stats store data
        envs hdec
    exact ⟨stats', store', res, hh, by rw [hpc, hmc], by rw [hvi, hpc], herr,
      hse⟩

/-- C8: a batch whose wire stream fails to decode is aborted whole: the
handler emits a processing-error event instead of an acknowledgment and
leaves every ProcessingStats counter and the store untouched. -/
theorem decode_failure_aborts_batch (ks : List Nat → Nat → Nat)
    (digest : JStr → JStr) (pj : List Nat → Option FieldMap)
    (dbFail : Nat → Bool) (nowAt : Nat → Nat) (ridAt : Nat → JStr)
    (stats : Stats) (store : List Bucket) (data : JsVal) (e : JStr)
    (hdec : parseMessageStream data = .error e) :
    handleMessageStream ks digest pj dbFail nowAt ridAt stats store data =
      (stats, store, .processingError e) := by
  rw [handleMessageStream, hdec]

/-- Witness for C8 at the empty-string stream. -/
theorem decode_failure_aborts_batch_witness :
    handleMessageStream (fun _ _ => 0) id (fun _ => none) (fun _ => false)
      (fun _ => 0) (fun _ => []) ⟨0, 0, 0, 0, 0, 0⟩ [] (.str []) =
      (⟨0, 0, 0, 0, 0, 0⟩, [],
        .processingError "Invalid message stream format".toList) :=
  decode_failure_aborts_batch (fun _ _ => 0) id (fun _ => none)
    (fun _ => false) (fun _ => 0) (fun _ => []) ⟨0, 0, 0, 0, 0, 0⟩ []
    (.str []) "Invalid message stream format".toList rfl

/-- C7 amended: an item whose decryption, parsing and tag validation all
succeed but whose persistence write fails is classified invalid by the
catch-all handler: it is returned as valid:false, saved:false, so the batch
counts it in invalidCount, incrementing neither validCount nor savedCount. -/
theorem persistence_failure_counts_invalid (ks : List Nat → Nat → Nat)
    (digest : JStr → JStr) (pj : List Nat → Option FieldMap) (now : Nat)
    (rid : JStr) (store : List Bucket) (env : JStr) (plain : List Nat)
    (obj : FieldMap)
    (hdec : decrypt ks env = .ok plain)
    (hpj : pj plain = some obj)
    (hval : validateSecretKey digest obj = true) :
    processEncryptedMessage ks digest pj true now rid store env =
      .ok (⟨false, false⟩, store) := by
  simp [processEncryptedMessage, processBody, hdec, hpj, hval]

/-- C7 fails as frozen: in this one-item batch the item decrypts, parses and
validates, only its persistence write fails — yet the acknowledgment has
validCount = 0 and invalidCount = 1: the persistence failure is counted as
invalid, not as valid-but-unsaved. -/
theorem persistence_failure_counterexample :
    decrypt (fun _ _ => 0)
      (encrypt (fun _ _ => 0) (List.replicate 16 0) [0]) = .ok [0] ∧
    validateSecretKey id [(['a'], ['x']),
      (secretKeyField, createHash id [(['a'], ['x'])])] = true ∧
    handleMessageStream (fun _ _ => 0) id
      (fun _ => some [(['a'], ['x']),
        (secretKeyField, createHash id [(['a'], ['x'])])])
      (fun _ => true) (fun _ => 0) (fun _ => [])
      ⟨0, 0, 0, 0, 0, 0⟩ []
      (.str (encrypt (fun _ _ => 0) (List.replicate 16 0) [0])) =
      (⟨1, 1, 0, 1, 0, 0⟩, [], .ack ⟨1, 1, 0, 1, 0, []⟩) :=
  ⟨rfl, by decide, rfl⟩

/-- Witness for the amended C7 at a concrete tagged item whose write fails. -/
theorem persistence_failure_counts_invalid_witness :
    processEncryptedMessage (fun _ _ => 0) id
      (fun _ => some [(['a'], ['x']),
        (secretKeyField, createHash id [(['a'], ['x'])])])
      true 0 [] []
      (encrypt (fun _ _ => 0) (List.replicate 16 0) [0]) =
      .ok (⟨false, false⟩, []) :=
  persistence_failure_counts_invalid (fun _ _ => 0) id
    (fun _ => some [(['a'], ['x']),
      (secretKeyField, createHash id [(['a'], ['x'])])])
    0 [] [] (encrypt (fun _ _ => 0) (List.replicate 16 0) [0]) [0]
    [(['a'], ['x']), (secretKeyField, createHash id [(['a'], ['x'])])]
    rfl rfl (by decide)

/-- Witness for C1: a two-item batch whose second envelope is garbage (no
colon, so decryption fails) and whose first decrypts, parses, validates and
persists. -/
theorem batch_partial_failure_isolation_witness :
    ∃ stats' store' res,
      handleMessageStream (fun _ _ => 0) id
        (fun _ => some [(['a'], ['x']),
          (secretKeyField, createHash id [(['a'], ['x'])])])
        (fun _ => false) (fun _ => 0) (fun _ => [])
        ⟨0, 0, 0, 0, 0, 0⟩ []
        (.str (createMessageStream
          [encrypt (fun _ _ => 0) (List.replicate 16 0) [0], ['z']])) =
        (stats', store', .ack res) ∧
      res.processedCount =
        ([encrypt (fun _ _ => 0) (List.replicate 16 0) [0], ['z']] :
          List JStr).length ∧
      res.invalidCount = 1 ∧
      res.validCount =
        ([encrypt (fun _ _ => 0) (List.replicate 16 0) [0], ['z']] :
          List JStr).length - 1 ∧
      res.errors = [] :=
  batch_partial_failure_isolation (fun _ _ => 0) id
    (fun _ => some [(['a'], ['x']),
      (secretKeyField, createHash id [(['a'], ['x'])])])
    (fun _ => false) (fun _ => 0) (fun _ => [])
    ⟨0, 0, 0, 0, 0, 0⟩ []
    (.str (createMessageStream
      [encrypt (fun _ _ => 0) (List.replicate 16 0) [0], ['z']]))
    [encrypt (fun _ _ => 0) (List.replicate 16 0) [0], ['z']] 1
    (by decide) rfl
    (Or.inl ⟨"Invalid encrypted text format".toList, rfl⟩)
    (by decide)

/-- Witness for C10 at a one-envelope stream whose item fails to parse. -/
theorem processEncryptedMessage_total_witness :
    (∀ (df : Bool) (now : Nat) (rid : JStr) (st : List Bucket) (env : JStr),
      ∃ r, processEncryptedMessage (fun _ _ => 0) id (fun _ => none) df now
        rid st env = .ok r) ∧
    ∃ stats' store' res,
      handleMessageStream (fun _ _ => 0) id (fun _ => none) (fun _ => false)
        (fun _ => 0) (fun _ => []) ⟨0, 0, 0, 0, 0, 0⟩ [] (.str ['a']) =
        (stats', store', .ack res) ∧
      res.processedCount = res.messageCount ∧
      res.validCount + res.invalidCount = res.processedCount ∧
      res.errors = [] ∧
      stats'.errors = (⟨0, 0, 0, 0, 0, 0⟩ : Stats).errors :=
  processEncryptedMessage_total (fun _ _ => 0) id (fun _ => none)
    (fun _ => false) (fun _ => 0) (fun _ => []) ⟨0, 0, 0, 0, 0, 0⟩ []
    (.str ['a']) [['a']] rfl

/-! Producer connection state machine, from the emitter service source
(src/unnamed/part_000).  The mutable instance fields are the state; the
socket events and timer firings are the event alphabet.  `intervalActive`
models the periodic-send interval handle, `pendingReconnect` an armed
reconnect timeout. -/

/-- The emitter's mutable fields. -/
structure EmitterState where
  isConnected : Bool
  intervalActive : Bool
  reconnectAttempts : Nat
  maxReconnectAttempts : Nat
  pendingReconnect : Bool
  stopped : Bool
deriving DecidableEq

/-- Events driving the emitter. -/
inductive EmitterEvent where
  | connectOk
  | connectFailed
  | disconnected (selfInitiated : Bool)
  | reconnectTimerFire
  | userStop
deriving DecidableEq

/-- From the emitter source, `stop`: stop periodic messaging, disconnect the
socket, mark the service stopped.  The source keeps no handle to an armed
reconnect timeout, so stop does not clear one; in the exhaustion run below
the timeout has already fired when stop is reached. -/
def emitterStop (s : EmitterState) : EmitterState :=
  { s with intervalActive := false, isConnected := false, stopped := true }

/-- From the emitter source, `scheduleReconnect`: once reconnectAttempts has
reached maxReconnectAttempts, stop and arm nothing further; otherwise
increment the counter and arm the fixed-delay reconnect timeout. -/
def scheduleReconnect (s : EmitterState) : EmitterState :=
  if s.maxReconnectAttempts ≤ s.reconnectAttempts then emitterStop s
  else { s with reconnectAttempts := s.reconnectAttempts + 1,
                pendingReconnect := true }

/-- One transition of the emitter: a successful connect resets the attempt
counter and starts periodic messaging (the first send is immediate); a
connection error schedules a reconnect; a disconnect stops periodic
messaging and schedules a reconnect unless self-initiated; the reconnect
timeout firing consumes the armed timer and re-enters connect (whose outcome
arrives as the next event); an explicit user stop is terminal. -/
def emitterStep (s : EmitterState) : EmitterEvent → EmitterState
  | .connectOk =>
    { s with isConnected := true, reconnectAttempts := 0,
             intervalActive := true }
  | .connectFailed => scheduleReconnect { s with isConnected := false }
  | .disconnected selfInitiated =>
    if selfInitiated then { s with isConnected := false, intervalActive := false }
    else scheduleReconnect { s with isConnected := false, intervalActive := false }
  | .reconnectTimerFire => { s with pendingReconnect := false }
  | .userStop => emitterStop s

/-- A run of the machine over a list of events. -/
def emitterRun (s : EmitterState) (events : List EmitterEvent) : EmitterState :=
  events.foldl emitterStep s

/-- The state of a freshly constructed emitter with the given retry budget. -/
def emitterInit (maxAttempts : Nat) : EmitterState :=
  ⟨false, false, 0, maxAttempts, false, false⟩

/-- The reconnect-exhaustion scenario: the initial connect fails, then each
armed reconnect timeout fires and its connect attempt fails too, n times. -/
def failRun (n : Nat) : List EmitterEvent :=
  .connectFailed ::
    (List.replicate n
      [EmitterEvent.reconnectTimerFire, EmitterEvent.connectFailed]).flatten

theorem failRun_aux (maxAttempts : Nat) :
    ∀ (n a : Nat), a + n = maxAttempts + 1 → a ≤ maxAttempts →
    emitterRun ⟨false, false, a, maxAttempts, true, false⟩
      (List.replicate n
        [EmitterEvent.reconnectTimerFire, EmitterEvent.connectFailed]).flatten =
      ⟨false, false, maxAttempts, maxAttempts, false, true⟩ := by
  intro n
  induction n with
  | zero => intro a h1 h2; omega
  | succ n ih =>
    intro a h1 h2
    rw [List.replicate_succ, List.flatten_cons]
    rw [emitterRun, List.foldl_append]
    by_cases ha : a = maxAttempts
    · subst ha
      have hn : n = 0 := by omega
      subst hn
      simp [emitterStep, scheduleReconnect, emitterStop]
    · have ha' : a < maxAttempts := lt_of_le_of_ne h2 ha
      have hblock : List.foldl emitterStep
          ⟨false, false, a, maxAttempts, true, false⟩
          [EmitterEvent.reconnectTimerFire, EmitterEvent.connectFailed] =
          ⟨false, false, a + 1, maxAttempts, true, false⟩ := by
        simp only [List.foldl, emitterStep, scheduleReconnect]
        rw [if_neg (by simp; omega)]
      rw [hblock]
      exact ih (a + 1) (by omega) (by omega)

/-- C9: with any positive retry budget, the run in which the initial connect
fails and every scheduled reconnect attempt fails consecutively — the
attempt counter being incremented on each failure and never reset — drives
the emitter into the terminal stopped state: the periodic-send interval is
cancelled (it was never started), no reconnect timeout is armed, and the
final transition schedules nothing further. -/
theorem reconnect_exhaustion_stops (maxAttempts : Nat)
    (hpos : 1 ≤ maxAttempts) :
    emitterRun (emitterInit maxAttempts) (failRun maxAttempts) =
      ⟨false, false, maxAttempts, maxAttempts, false, true⟩ := by
  have hfirst : emitterStep (emitterInit maxAttempts) .connectFailed =
      ⟨false, false, 1, maxAttempts, true, false⟩ := by
    simp only [emitterInit, emitterStep, scheduleReconnect]
    rw [if_neg (by simp; omega)]
  rw [failRun, emitterRun, List.foldl_cons, hfirst]
  exact failRun_aux maxAttempts maxAttempts 1 (by omega) hpos

/-- Witness for C9 at the source's retry budget of 10. -/
theorem reconnect_exhaustion_stops_witness :
    emitterRun (emitterInit 10) (failRun 10) =
      ⟨false, false, 10, 10, false, true⟩ :=
  reconnect_exhaustion_stops 10 (by decide)
